import Mathlib

/-!
Verification development for the notesock pastebin server
(`src/id_gen.rs`, `src/main.rs`).

The Rust code is shallowly embedded: machine integers become `Nat` with
explicit `% 2 ^ 32` / `% 2 ^ 64` wrapping where the source can overflow
(release-mode wrapping semantics; debug builds would panic at the same
spots, noted per claim), `HashSet`/`BTreeSet` become `Finset Nat`,
`Vec` becomes `List Nat` (popped from the back), random draws become
explicit oracle functions, and fallible operations return `Option`.
-/

namespace Notesock

/-! ## Base-36 codec

`char::to_digit(36)` from the Rust standard library: `0-9` map to `0-9`,
`a-z` and `A-Z` map to `10-35`, everything else fails. -/

def toDigit36 (c : Char) : Option Nat :=
  if 48 ≤ c.toNat ∧ c.toNat ≤ 57 then some (c.toNat - 48)
  else if 97 ≤ c.toNat ∧ c.toNat ≤ 122 then some (c.toNat - 87)
  else if 65 ≤ c.toNat ∧ c.toNat ≤ 90 then some (c.toNat - 55)
  else none

/-- Embedding of `b36_to::<T>` (src/id_gen.rs lines 196-204).  The loop
walks the reversed characters; for index `i` it computes the weight
`32u32.pow(i)` — in the `u32` type regardless of `T`, hence the
`% 2 ^ 32` (release-mode wrapping; a debug build panics once
`32 ^ i` exceeds `u32::MAX`).  The product `a * b` is taken in `T`
(modulus `M`, i.e. `2 ^ 64` for `usize`, `2 ^ 32` for `u32`) and
`checked_add` fails when the accumulator would leave `T`. -/
def b36Aux (M : Nat) : List Char → Nat → Nat → Option Nat
  | [], _, ret => some ret
  | c :: cs, i, ret =>
    let a := (32 ^ i) % 2 ^ 32
    match toDigit36 c with
    | none => none
    | some b =>
      let prod := (a * b) % M
      if ret + prod < M then b36Aux M cs (i + 1) (ret + prod) else none

def b36_to (M : Nat) (l : List Char) : Option Nat :=
  b36Aux M l.reverse 0 0

/-- Digits of `n` in base 36, least significant first (`radix_fmt`'s
`radix_36` walks the value by repeated division).  Fueled structural
recursion; fuel `n` always suffices. -/
def b36DigitsAux : Nat → Nat → List Nat
  | _, 0 => []
  | n, fuel + 1 => if n = 0 then [] else n % 36 :: b36DigitsAux (n / 36) fuel

def b36Digits (n : Nat) : List Nat := b36DigitsAux n n

/-- Digit-to-character table used by `radix_fmt::radix_36`'s `Display`:
`0-9` then lowercase `a-z`. -/
def b36Char (d : Nat) : Char :=
  if d < 10 then Char.ofNat (48 + d) else Char.ofNat (87 + d)

/-- Embedding of `radix_36(i).to_string()`: most significant digit first,
zero printed as `"0"`. -/
def radix36 (n : Nat) : String :=
  if n = 0 then "0" else String.mk ((b36Digits n).reverse.map b36Char)

/-- Value of a least-significant-first base-36 digit list. -/
def val36 (l : List Nat) : Nat := l.foldr (fun d acc => d + 36 * acc) 0

theorem val36_b36DigitsAux : ∀ fuel n, n ≤ fuel → val36 (b36DigitsAux n fuel) = n := by
  intro fuel
  induction fuel with
  | zero => intro n hn; interval_cases n; rfl
  | succ f ih =>
    intro n hn
    by_cases h0 : n = 0
    · subst h0; simp [b36DigitsAux, val36]
    · have hdiv : n / 36 ≤ f := by
        have : n / 36 < n := Nat.div_lt_self (Nat.pos_of_ne_zero h0) (by norm_num)
        omega
      simp only [b36DigitsAux, if_neg h0]
      simp only [val36, List.foldr_cons] at *
      rw [ih _ hdiv]
      omega

theorem val36_b36Digits (n : Nat) : val36 (b36Digits n) = n :=
  val36_b36DigitsAux n n le_rfl

theorem b36Digits_lt : ∀ fuel n, ∀ x ∈ b36DigitsAux n fuel, x < 36 := by
  intro fuel
  induction fuel with
  | zero => intro n x hx; simp [b36DigitsAux] at hx
  | succ f ih =>
    intro n x hx
    by_cases h0 : n = 0
    · subst h0; simp [b36DigitsAux] at hx
    · simp only [b36DigitsAux, if_neg h0, List.mem_cons] at hx
      rcases hx with h | h
      · subst h; exact Nat.mod_lt _ (by norm_num)
      · exact ih _ _ h

/-- Left inverse of `b36Char` on digits below 36. -/
def b36Val (c : Char) : Nat :=
  if c.toNat ≤ 57 then c.toNat - 48 else c.toNat - 87

theorem b36Val_b36Char : ∀ d, d < 36 → b36Val (b36Char d) = d := by decide

theorem map_b36Char_inj :
    ∀ l₁ l₂ : List Nat, (∀ x ∈ l₁, x < 36) → (∀ x ∈ l₂, x < 36) →
      l₁.map b36Char = l₂.map b36Char → l₁ = l₂ := by
  intro l₁
  induction l₁ with
  | nil => intro l₂ _ _ h; cases l₂ <;> simp_all
  | cons a t ih =>
    intro l₂ h₁ h₂ h
    cases l₂ with
    | nil => simp at h
    | cons b t₂ =>
      simp only [List.map_cons, List.cons.injEq] at h
      have ha : a < 36 := h₁ a (by simp)
      have hb : b < 36 := h₂ b (by simp)
      have hab : a = b := by
        have := congrArg b36Val h.1
        rwa [b36Val_b36Char a ha, b36Val_b36Char b hb] at this
      have ht : t = t₂ :=
        ih t₂ (fun x hx => h₁ x (by simp [hx])) (fun x hx => h₂ x (by simp [hx])) h.2
      rw [hab, ht]

theorem radix36_inj : ∀ m n : Nat, radix36 m = radix36 n → m = n := by
  have key : ∀ n : Nat, n ≠ 0 → ∀ l : List Nat, (∀ x ∈ l, x < 36) →
      String.mk ((b36Digits n).reverse.map b36Char) = String.mk (l.reverse.map b36Char) →
      b36Digits n = l := by
    intro n _ l hl h
    have hdata : (b36Digits n).reverse.map b36Char = l.reverse.map b36Char := by
      injection h
    have := map_b36Char_inj _ _
      (fun x hx => b36Digits_lt n n x (by simpa [b36Digits] using List.mem_reverse.mp hx))
      (fun x hx => hl x (List.mem_reverse.mp hx)) hdata
    exact List.reverse_injective this
  intro m n h
  by_cases hm : m = 0 <;> by_cases hn : n = 0
  · rw [hm, hn]
  · exfalso
    simp only [radix36, if_pos hm, if_neg hn] at h
    have h0 : ("0" : String) = String.mk ([0].reverse.map b36Char) := by decide
    rw [h0] at h
    have := key n hn [0] (by decide) h.symm
    have hv := val36_b36Digits n
    rw [this] at hv
    exact hn (by simpa [val36] using hv.symm)
  · exfalso
    simp only [radix36, if_neg hm, if_pos hn] at h
    have h0 : ("0" : String) = String.mk ([0].reverse.map b36Char) := by decide
    rw [h0] at h
    have := key m hm [0] (by decide) h
    have hv := val36_b36Digits m
    rw [this] at hv
    exact hm (by simpa [val36] using hv.symm)
  · simp only [radix36, if_neg hm, if_neg hn] at h
    have := key m hm (b36Digits n)
      (fun x hx => b36Digits_lt n n x (by simpa [b36Digits] using hx)) h
    have hv₁ := val36_b36Digits m
    have hv₂ := val36_b36Digits n
    rw [this] at hv₁
    rw [hv₂] at hv₁
    exact hv₁.symm

/-! ## Strategy A — `RandomIdGenerator` (src/id_gen.rs lines 26-95)

`main.rs` instantiates `RandomIdGenerator::<usize>` (64-bit), so the live
set is a set of naturals below `2 ^ 64` and `remove` decodes with modulus
`2 ^ 64`.  The uniform draws of `(min..max).sample_single(thread_rng())`
are modelled by an oracle `d : Nat → Nat` listing the successive sampled
values; `d k` is the `k`-th draw (zero-based) of one `get` call.  The
`while !set.insert(id)` loop is embedded with explicit fuel: the outer
`none` means the loop has not finished within `fuel` iterations (with
`max_iter = none` it can genuinely run forever). -/

/-- One `get` call of `RandomIdGenerator` (src/id_gen.rs lines 74-87).
State carried through the loop: current candidate `id`, number `k` of
draws made so far, retry counter `index`.  Returns
`(result, new set, draws made)`. -/
def rigLoop (d : Nat → Nat) (maxIter : Option Nat) :
    Nat → Finset Nat → Nat → Nat → Nat → Option (Option Nat × Finset Nat × Nat)
  | 0, _, _, _, _ => none
  | fuel + 1, S, id, k, index =>
    if id ∈ S then
      -- `set.insert` returned false: draw again, bump the retry counter
      match maxIter with
      | some limit =>
        if limit ≤ index + 1 then some (none, S, k + 1)
        else rigLoop d maxIter fuel S (d k) (k + 1) (index + 1)
      | none => rigLoop d none fuel S (d k) (k + 1) index
    else some (some id, insert id S, k)

def rigGet (d : Nat → Nat) (maxIter : Option Nat) (fuel : Nat) (S : Finset Nat) :
    Option (Option Nat × Finset Nat × Nat) :=
  rigLoop d maxIter fuel S (d 0) 1 0

/-- `RandomIdGenerator::remove` (src/id_gen.rs lines 88-94): decode the
string with `b36_to::<usize>`; on failure report `false`, otherwise
remove the decoded value, reporting whether it was present. -/
def rigRemove (S : Finset Nat) (val : String) : Bool × Finset Nat :=
  match b36_to (2 ^ 64) val.data with
  | none => (false, S)
  | some id => (decide (id ∈ S), S.erase id)

/-- A sequence of `get` calls with no intervening `remove`; one draw
oracle per call.  A call whose loop does not finish within `fuel`
contributes no identifier and leaves the set unchanged. -/
def rigGetN (maxIter : Option Nat) (fuel : Nat) :
    List (Nat → Nat) → Finset Nat → List (Option String) × Finset Nat
  | [], S => ([], S)
  | d :: ds, S =>
    match rigGet d maxIter fuel S with
    | none =>
      let r := rigGetN maxIter fuel ds S
      (none :: r.1, r.2)
    | some (res, S₁, _) =>
      let r := rigGetN maxIter fuel ds S₁
      (res.map radix36 :: r.1, r.2)

/-! ## Paste worker and expiry scheduler (src/main.rs)

`paste_worker` (lines 125-307) is embedded as a pure function over one
connection.  External effects are oracles: `hdr` is the header length
consumed by `proxy_protocol::parse` (`none` = parse failure), `utf8Ok`
is `std::str::from_utf8(..).is_ok()`, `fs` is the combined outcome of
`create_dir_all` and `fs::write`. -/

inductive Reply where
  | noReply
  | exceeded
  | invalidUtf8
  | exhausted
  | internalError
  | success (id : String)
  deriving DecidableEq

inductive FsOutcome where
  | ok
  | failCreate
  | failWrite
  deriving DecidableEq

/-- Header length and payload length after the PROXY stage
(src/main.rs lines 201-221): without `--talk-proxy` the whole buffer is
payload; with it, a successful parse of `h` header bytes leaves
`buf.len() - h` payload bytes, and a failed parse aborts. -/
def parsedHeader (talkProxy : Bool) (hdr : Option Nat) (bufLen : Nat) :
    Option (Nat × Nat) :=
  if talkProxy then hdr.map (fun h => (h, bufLen - h)) else some (0, bufLen)

/-- One loop iteration of `paste_worker` for one accepted connection.
`stream` is the byte sequence available until EOF; the worker reads at
most `paste_limit + slack` bytes of it (lines 187-190), with
`slack = (if talk_proxy { 1024 } else { 0 }) + 1` (line 133).
Returns the reply written, whether the paste directory was created, and
the generator's live set afterwards. -/
def pasteStep (pasteLenKib : Nat) (talkProxy : Bool) (stream : List Nat)
    (hdr : Option Nat) (utf8Ok : List Nat → Bool) (d : Nat → Nat)
    (maxIter : Option Nat) (fuel : Nat) (S : Finset Nat) (fs : FsOutcome) :
    Reply × Bool × Finset Nat :=
  let pasteLimit := pasteLenKib * 1024
  let slack := (if talkProxy then 1024 else 0) + 1
  let buf := stream.take (pasteLimit + slack)
  match parsedHeader talkProxy hdr buf.length with
  | none => (Reply.noReply, false, S)  -- proxy parse failure: shutdown only
  | some (headerLen, payloadLen) =>
    if pasteLimit < payloadLen then (Reply.exceeded, false, S)
    else
      let payload := buf.drop headerLen
      if utf8Ok payload then
        match rigGet d maxIter fuel S with
        | none => (Reply.noReply, false, S)  -- non-terminating generator loop
        | some (none, S', _) => (Reply.exhausted, false, S')
        | some (some v, S', _) =>
          let pasteId := radix36 v
          match fs with
          | FsOutcome.ok => (Reply.success pasteId, true, S')
          | FsOutcome.failCreate => (Reply.internalError, false, (rigRemove S' pasteId).2)
          | FsOutcome.failWrite => (Reply.internalError, true, (rigRemove S' pasteId).2)
      else (Reply.invalidUtf8, false, S)

/-- `Path::join` for an absolute directory and a relative file name. -/
def pathJoin (dir name : String) : String := dir ++ "/" ++ name

/-- One job of `cleanup_worker` (src/main.rs lines 83-123) after the
sleep: delete the directory; on success call
`remove(&paste_path.as_os_str().to_string_lossy())` — the FULL path
string, not the basename.  Returns `remove`'s result and the live set. -/
def cleanupStep (S : Finset Nat) (pastePath : String) (rmOk : Bool) :
    Bool × Finset Nat :=
  if rmOk then rigRemove S pastePath else (false, S)

/-! ## Strategy B — `PartitionIdGenerator` (src/id_gen.rs lines 97-194)

`min`, `max`, the live set `numbers` and the prefetch cache are `u32`
values.  The `up - lo` subtractions are `u32` arithmetic, embedded with
release-mode wrapping (`wsub32`).  `itertools`' `sorted_unstable_by`
with the reversed comparator is modelled by `List.insertionSort` under
the same total preorder `wider`; the source's unstable sort realizes
some comparator-respecting permutation and the theorems below depend
only on that.  Random gap sampling
`(lo + 1..up).sample_single(thread_rng())` is an oracle
`o : Nat → Nat → Nat` applied to the gap bounds. -/

/-- Wrapping `u32` subtraction `a - b` (release semantics). -/
def wsub32 (a b : Nat) : Nat := (a + 2 ^ 32 - b) % 2 ^ 32

structure PartState where
  min : Nat
  max : Nat
  isRandom : Bool
  numbers : Finset Nat
  cache : List Nat
  maxPregen : Nat
  deriving DecidableEq

/-- `once(min).chain(numbers.iter().chain(once(max)))`: iteration order of
a `BTreeSet` is ascending. -/
def chain (s : PartState) : List Nat :=
  s.min :: (s.numbers.sort (· ≤ ·) ++ [s.max])

/-- `tuple_windows()`: adjacent pairs. -/
def windows (l : List Nat) : List (Nat × Nat) := l.zip l.tail

/-- Width of a gap `(lo, up)`: the `u32` difference `up - lo`. -/
def widthW (p : Nat × Nat) : Nat := wsub32 p.2 p.1

/-- `.filter(|(lo, up)| up - lo > 1)`. -/
def gapsOf (s : PartState) : List (Nat × Nat) :=
  (windows (chain s)).filter (fun p => 1 < widthW p)

/-- The reversed comparator `(d - c).cmp(&(b - a))`: sort by descending
width. -/
def wider (p q : Nat × Nat) : Prop := widthW q ≤ widthW p

instance : DecidableRel wider := fun _ _ => Nat.decLe _ _

instance : IsTotal (Nat × Nat) wider := ⟨fun p q => Nat.le_total (widthW q) (widthW p)⟩

instance : IsTrans (Nat × Nat) wider := ⟨fun _ _ _ h₁ h₂ => le_trans h₂ h₁⟩

def sortedGaps (s : PartState) : List (Nat × Nat) :=
  (gapsOf s).insertionSort wider

/-- `.take(self.max_pregen_size)`. -/
def keptGaps (s : PartState) : List (Nat × Nat) :=
  (sortedGaps s).take s.maxPregen

/-- Candidate for one gap (src/id_gen.rs lines 158-167): the single
interior point when the width is 2, a random interior point in `random`
mode, else the midpoint computed in `u64` and cast back to `u32`. -/
def cand (o : Nat → Nat → Nat) (isRandom : Bool) (p : Nat × Nat) : Nat :=
  if widthW p = 2 then p.1 + 1
  else if isRandom then o p.1 p.2
  else ((p.2 + p.1) / 2) % 2 ^ 32

/-- The collected cache after a refill: descending-width gaps, truncated,
reversed to ascending width, mapped to candidates. -/
def newCache (o : Nat → Nat → Nat) (s : PartState) : List Nat :=
  (keptGaps s).reverse.map (cand o s.isRandom)

/-- `PartitionIdGenerator::generate` (src/id_gen.rs lines 148-177). -/
def pGenerate (o : Nat → Nat → Nat) (s : PartState) : Bool × PartState :=
  let c := newCache o s
  if c.isEmpty then (false, s)
  else (true, { s with numbers := s.numbers ∪ c.toFinset, cache := c })

/-- `self.cache.pop()` on a `Vec`: remove and return the LAST element. -/
def pPop (s : PartState) : Option String × PartState :=
  match s.cache.getLast? with
  | none => (none, s)
  | some v => (some (radix36 v), { s with cache := s.cache.dropLast })

/-- `PartitionIdGenerator::get` (src/id_gen.rs lines 181-187). -/
def pGet (o : Nat → Nat → Nat) (s : PartState) : Option String × PartState :=
  if s.cache.isEmpty then
    match pGenerate o s with
    | (false, s') => (none, s')
    | (true, s') => pPop s'
  else pPop s

/-- `PartitionIdGenerator::remove` (src/id_gen.rs lines 188-193):
decode with `b36_to::<u32>`. -/
def pRemove (s : PartState) (val : String) : Bool × PartState :=
  match b36_to (2 ^ 32) val.data with
  | some v => (decide (v ∈ s.numbers), { s with numbers := s.numbers.erase v })
  | none => (false, s)

/-- A sequence of `get` calls with no intervening `remove`, one sampling
oracle per call. -/
def pGetN : List (Nat → Nat → Nat) → PartState → List (Option String) × PartState
  | [], s => ([], s)
  | o :: os, s =>
    let r := pGet o s
    let rest := pGetN os r.2
    (r.1 :: rest.1, rest.2)

/-- The sampling oracle returns a point strictly inside the (nonempty)
open gap, as `sample_single` on `lo + 1..up` does. -/
def OracleOK (o : Nat → Nat → Nat) : Prop :=
  ∀ a b, a + 2 ≤ b → a + 1 ≤ o a b ∧ o a b < b

/-- Well-formedness of a `PartitionIdGenerator` state: a nonempty `u32`
range, live values inside it, and a duplicate-free cache of live values.
Established by the constructor and preserved by `get` (proved below). -/
def InvP (s : PartState) : Prop :=
  s.min < s.max ∧ s.max < 2 ^ 32 ∧ 1 ≤ s.maxPregen ∧
    (∀ x ∈ s.numbers, s.min ≤ x ∧ x < s.max) ∧
    s.cache.Nodup ∧ (∀ v ∈ s.cache, v ∈ s.numbers)

instance (s : PartState) : Decidable (InvP s) := by
  unfold InvP; infer_instance

/-! ## Claim C1 — base-36 round-trip -/

/-- Claim C1: the round-trip `b36_to(radix_36(i).to_string()) == Some(i)`
fails on the code at `i = 36`: the encoder produces `"10"` (base 36) but
the decoder weights digits by `32 ^ i`, yielding `Some 32`.  This also
contradicts the repository's own unit test `test_b36_conversion`, which
asserts the round-trip for `0..1000`. -/
theorem b36_roundtrip_fails_at_36 :
    radix36 36 = "10" ∧
    b36_to (2 ^ 64) (radix36 36).data = some 32 ∧ (32 : Nat) ≠ 36 := by
  decide

/-! ## Claim C2 — expiry scheduler releases the identifier -/

/-- Claim C2: `cleanup_worker` passes the FULL directory path (not the
basename) to `remove`.  With the default paste directory and the live id
32768 (allocated as `"pa8"`), the path string fails to decode (`'/'` is
not base 36), `remove` returns `false`, and the identifier never leaves
the live set — contradicting the claim. -/
theorem cleanup_release_full_path_fails :
    radix36 32768 = "pa8" ∧
    pathJoin "/var/lib/notesock" "pa8" = "/var/lib/notesock/pa8" ∧
    b36_to (2 ^ 64) "/var/lib/notesock/pa8".data = none ∧
    cleanupStep {32768} (pathJoin "/var/lib/notesock" "pa8") true = (false, {32768}) := by
  decide

/-! ## Claim C3 — no leaked IDs on write failure -/

/-- Claim C3: on a filesystem failure `paste_worker` calls
`remove(&paste_id)`, but `remove` decodes the id string with `32 ^ i`
weights whereas `get` encoded it in base 36.  With the default range
(`id-lower = "1000"`, so the live values start at 32768), the freshly
allocated value 32768 is encoded `"pa8"`, which decodes back to 25928,
so the erase misses and the live set stays `{32768}` instead of
returning to `∅`: the ID is leaked. -/
theorem write_failure_leaks_id :
    pasteStep 1 false (List.replicate 5 104) none (fun _ => true)
        (fun _ => 32768) (some 256) 1 ∅ FsOutcome.failWrite =
      (Reply.internalError, true, ({32768} : Finset Nat)) ∧
    b36_to (2 ^ 64) (radix36 32768).data = some 25928 ∧
    ({32768} : Finset Nat) ≠ ∅ := by
  decide

/-! ## Claim C4 — release of a malformed identifier -/

/-- Claim C4 counterexample: the empty string is not a well-formed
identifier (it has no symbols), yet `b36_to` decodes it to `Some(0)`
(the fold over zero characters), so with 0 live `remove("")` returns
`true` and removes 0 from the live set — not `false` with the set
unchanged as the claim states. -/
theorem release_empty_string_removes_zero :
    ("" : String).data = [] ∧
    rigRemove {0} "" = (true, ∅) ∧ (∅ : Finset Nat) ≠ {0} := by
  decide

/-- Claim C4 (amended): for every string on which the decoder fails —
one with a character outside `0-9`/`a-z`/`A-Z`, or whose accumulated
checked addition overflows — `remove` returns `false` and leaves the
live set unchanged, for both generator strategies.  (The empty string
and strings of eight or more symbols are excluded: the former decodes to
`Some(0)` and the latter may decode via wrapped weights, so they can
remove a live ID.) -/
theorem release_undecodable_string_noop :
    ∀ (S : Finset Nat) (t : PartState) (str : String),
      (b36_to (2 ^ 64) str.data = none → rigRemove S str = (false, S)) ∧
      (b36_to (2 ^ 32) str.data = none → pRemove t str = (false, t)) := by
  intro S t str
  refine ⟨fun h => ?_, fun h => ?_⟩
  · unfold rigRemove
    rw [h]
  · unfold pRemove
    rw [h]

/-- A small well-formed `PartitionIdGenerator` state used by witnesses. -/
def tinyState : PartState :=
  { min := 0, max := 10, isRandom := false, numbers := {7},
    cache := [], maxPregen := 2 }

/-- Witness for `release_undecodable_string_noop` at the string `"/"`. -/
theorem release_undecodable_string_noop_witness :
    rigRemove {5} "/" = (false, {5}) ∧ pRemove tinyState "/" = (false, tinyState) :=
  ⟨(release_undecodable_string_noop {5} tinyState "/").1 (by decide),
   (release_undecodable_string_noop ∅ tinyState "/").2 (by decide)⟩

/-! ## Claim C5 — decoding is total and fails on overflow -/

/-- Claim C5: the per-digit weight is computed as `32u32.pow(i)`; at
`i = 7` this exceeds `u32::MAX` (a debug build panics there; a release
build wraps `2 ^ 35` to 0).  Decoding `"z0000000"` — whose value
exceeds `u32::MAX` — therefore returns `Some(0)` instead of failing:
the overflow is neither detected nor reported. -/
theorem b36_to_weight_overflow_wraps :
    b36_to (2 ^ 32) "z0000000".data = some 0 ∧
    (32 : Nat) ^ 7 % 2 ^ 32 = 0 ∧ 2 ^ 32 ≤ 35 * 36 ^ 7 := by
  decide

/-! ## Characterization of the bounded retry loop -/

/-- At the loop head testing draw `j` (so `id = d j`, `k = j + 1`,
`index = j`), with `max_iter = Some m`: if every draw in `[j, m)`
collides the loop gives up having made `m + 1` draws; if `j₀` is the
first non-colliding draw in `[j, m)` it is inserted and returned. -/
theorem rigLoop_char (d : Nat → Nat) (S : Finset Nat) (m : Nat) :
    ∀ fuel j, j < m → m - j ≤ fuel →
      ((∀ i, j ≤ i → i < m → d i ∈ S) →
        rigLoop d (some m) fuel S (d j) (j + 1) j = some (none, S, m + 1)) ∧
      (∀ j₀, j ≤ j₀ → j₀ < m → d j₀ ∉ S → (∀ i, j ≤ i → i < j₀ → d i ∈ S) →
        rigLoop d (some m) fuel S (d j) (j + 1) j =
          some (some (d j₀), insert (d j₀) S, j₀ + 1)) := by
  intro fuel
  induction fuel with
  | zero => intro j hj hfuel; omega
  | succ f ih =>
    intro j hj hfuel
    constructor
    · intro hall
      have hdj : d j ∈ S := hall j le_rfl hj
      simp only [rigLoop, if_pos hdj]
      by_cases hlast : m ≤ j + 1
      · have hj1 : j + 1 = m := by omega
        simp only [if_pos hlast]
        rw [show j + 1 + 1 = m + 1 by omega]
      · simp only [if_neg hlast]
        exact (ih (j + 1) (by omega) (by omega)).1
          (fun i hi₁ hi₂ => hall i (by omega) hi₂)
    · intro j₀ hjj₀ hj₀ hfresh hcoll
      by_cases hje : j₀ = j
      · subst hje
        simp only [rigLoop, if_neg hfresh]
      · have hdj : d j ∈ S := hcoll j le_rfl (by omega)
        simp only [rigLoop, if_pos hdj]
        have hlast : ¬ m ≤ j + 1 := by omega
        simp only [if_neg hlast]
        exact (ih (j + 1) (by omega) (by omega)).2 j₀ (by omega) hj₀ hfresh
          (fun i hi₁ hi₂ => hcoll i (by omega) hi₂)

/-! ## Claim C7 — Strategy A retry cap -/

/-- Claim C7 counterexample: with `max_iter = Some(1)` and the initial
draw colliding, the single retry draw is made but the budget check fires
BEFORE it is tested: `get` returns `None` even though that retry draw
(the value 1) is not live — the claim says it would be inserted and
returned. -/
theorem rig_retry_discards_fresh_draw :
    rigGet (fun k => k) (some 1) 2 {0} = some (none, {0}, 2) ∧
    (1 : Nat) ∉ ({0} : Finset Nat) := by
  decide

/-- Claim C7 (amended): with `max_iter = Some(m)` (`m ≥ 1`), `get`
returns none exactly when the first `m` draws — the initial draw and the
first `m - 1` retries — all collide with the live set (the `m`-th retry
is drawn but discarded untested); otherwise the first non-colliding
draw among those `m` is inserted and its base-36 encoding returned. -/
theorem rig_retry_cap_spec (d : Nat → Nat) (S : Finset Nat) (m : Nat) (hm : 1 ≤ m) :
    (rigGet d (some m) (m + 1) S = some (none, S, m + 1) ↔ ∀ j, j < m → d j ∈ S) ∧
    (∀ j₀, j₀ < m → d j₀ ∉ S → (∀ i, i < j₀ → d i ∈ S) →
      rigGet d (some m) (m + 1) S = some (some (d j₀), insert (d j₀) S, j₀ + 1)) := by
  have base := rigLoop_char d S m (m + 1) 0 (by omega) (by omega)
  constructor
  · constructor
    · intro hres
      by_contra hnc
      push_neg at hnc
      obtain ⟨j, hj, hfresh⟩ := hnc
      have hex : ∃ i, i < m ∧ d i ∉ S := ⟨j, hj, hfresh⟩
      set j₀ := Nat.find hex with hj₀def
      obtain ⟨hj₀m, hj₀fresh⟩ := Nat.find_spec hex
      have hmin : ∀ i, i < j₀ → d i ∈ S := by
        intro i hi
        have := Nat.find_min hex hi
        push_neg at this
        exact this (by omega)
      have := base.2 j₀ (Nat.zero_le _) hj₀m hj₀fresh (fun i _ hi => hmin i hi)
      rw [rigGet, this] at hres
      simp at hres
    · intro hall
      exact base.1 (fun i _ hi => hall i hi)
  · intro j₀ hj₀ hfresh hcoll
    exact base.2 j₀ (Nat.zero_le _) hj₀ hfresh (fun i _ hi => hcoll i hi)

/-- Witness for `rig_retry_cap_spec`: `m = 2`, live set `{0}`, draws
`0, 1, 2, …`; draw 0 collides, draw 1 is fresh and is returned. -/
theorem rig_retry_cap_spec_witness :
    rigGet (fun k => k) (some 2) 3 {0} = some (some 1, insert 1 {0}, 2) :=
  (rig_retry_cap_spec (fun k => k) {0} 2 (by decide)).2 1 (by decide) (by decide)
    (by decide)

/-! ## Claim C10 — termination and draw bound of Strategy A -/

/-- Claim C10 counterexample: with `max_iter = Some(0)` and a colliding
initial draw, the loop draws a second value before giving up: 2 draws,
exceeding the claimed bound `m + 1 = 1`. -/
theorem rig_zero_cap_draws_twice :
    rigGet (fun _ => 0) (some 0) 1 {0} = some (none, {0}, 2) ∧ ¬ (2 ≤ 0 + 1) := by
  decide

/-- Claim C10 (amended): with `max_iter = Some(m)` the loop always
terminates within `m + 1` iterations, drawing at most `max m 1 + 1`
integers (`m + 1` when `m ≥ 1`, but 2 when `m = 0`); with
`max_iter = None` and every draw colliding it runs forever (exhausts
every fuel). -/
theorem rig_get_terminates_draw_bound (d : Nat → Nat) (S : Finset Nat) (m : Nat) :
    (∃ r, rigGet d (some m) (m + 1) S = some r) ∧
    (∀ res S' k, rigGet d (some m) (m + 1) S = some (res, S', k) → k ≤ max m 1 + 1) ∧
    (∀ fuel id k j, id ∈ S → (∀ i, d i ∈ S) →
      rigLoop d none fuel S id k j = none) := by
  refine ⟨?_, ?_, ?_⟩
  · by_cases hm : 1 ≤ m
    · by_cases hall : ∀ j, j < m → d j ∈ S
      · exact ⟨_, ((rig_retry_cap_spec d S m hm).1.mpr hall)⟩
      · push_neg at hall
        obtain ⟨j, hj, hfresh⟩ := hall
        have hex : ∃ i, i < m ∧ d i ∉ S := ⟨j, hj, hfresh⟩
        set j₀ := Nat.find hex
        obtain ⟨hj₀m, hj₀fresh⟩ := Nat.find_spec hex
        have hmin : ∀ i, i < j₀ → d i ∈ S := by
          intro i hi
          have := Nat.find_min hex hi
          push_neg at this
          exact this (by omega)
        exact ⟨_, (rig_retry_cap_spec d S m hm).2 j₀ hj₀m hj₀fresh hmin⟩
    · have hm0 : m = 0 := by omega
      subst hm0
      by_cases h0 : d 0 ∈ S
      · exact ⟨(none, S, 2), by simp [rigGet, rigLoop, if_pos h0]⟩
      · exact ⟨(some (d 0), insert (d 0) S, 1), by simp [rigGet, rigLoop, if_neg h0]⟩
  · intro res S' k hres
    by_cases hm : 1 ≤ m
    · by_cases hall : ∀ j, j < m → d j ∈ S
      · have heq := ((rig_retry_cap_spec d S m hm).1.mpr hall).symm.trans hres
        injection heq with h₁
        have : m + 1 = k := congrArg (fun t : Option Nat × Finset Nat × Nat => t.2.2) h₁
        omega
      · push_neg at hall
        obtain ⟨j, hj, hfresh⟩ := hall
        have hex : ∃ i, i < m ∧ d i ∉ S := ⟨j, hj, hfresh⟩
        set j₀ := Nat.find hex
        obtain ⟨hj₀m, hj₀fresh⟩ := Nat.find_spec hex
        have hmin : ∀ i, i < j₀ → d i ∈ S := by
          intro i hi
          have := Nat.find_min hex hi
          push_neg at this
          exact this (by omega)
        have heq := ((rig_retry_cap_spec d S m hm).2 j₀ hj₀m hj₀fresh hmin).symm.trans hres
        injection heq with h₁
        have : j₀ + 1 = k := congrArg (fun t : Option Nat × Finset Nat × Nat => t.2.2) h₁
        omega
    · have hm0 : m = 0 := by omega
      subst hm0
      by_cases h0 : d 0 ∈ S
      · simp only [rigGet, rigLoop, if_pos h0] at hres
        have h2 : (2 : Nat) = k := by
          have := hres
          simp only [Nat.le_refl, if_pos (by omega : (0:Nat) ≤ 0 + 1)] at this
          injection this with h₁
          exact congrArg (fun t : Option Nat × Finset Nat × Nat => t.2.2) h₁
        omega
      · simp only [rigGet, rigLoop, if_neg h0] at hres
        injection hres with h₁
        have : (1 : Nat) = k := congrArg (fun t : Option Nat × Finset Nat × Nat => t.2.2) h₁
        omega
  · intro fuel
    induction fuel with
    | zero => intro id k j _ _; rfl
    | succ f ih =>
      intro id k j hid hall
      simp only [rigLoop, if_pos hid]
      exact ih (d k) (k + 1) j (hall k) hall

/-- Witness for `rig_get_terminates_draw_bound`: `m = 0`, all draws 0,
live set `{0}`: the loop terminates with 2 draws (`≤ max 0 1 + 1`) and
the unbounded variant never finishes. -/
theorem rig_get_terminates_draw_bound_witness :
    (∃ r, rigGet (fun _ => 0) (some 0) 1 {0} = some r) ∧
    (2 : Nat) ≤ max 0 1 + 1 ∧
    rigLoop (fun _ => 0) none 5 {0} 0 1 0 = none :=
  ⟨(rig_get_terminates_draw_bound (fun _ => 0) {0} 0).1,
   (rig_get_terminates_draw_bound (fun _ => 0) {0} 0).2.1 none {0} 2 (by decide),
   (rig_get_terminates_draw_bound (fun _ => 0) {0} 0).2.2 5 0 1 0 (by decide)
     (fun _ => by decide)⟩

/-! ## Uniqueness of Strategy A identifiers -/

/-- Any terminating run of the retry loop either gives up leaving the set
unchanged, or inserts a value that was not yet live. -/
theorem rigLoop_effect (d : Nat → Nat) (mI : Option Nat) :
    ∀ fuel S id k j res S' k',
      rigLoop d mI fuel S id k j = some (res, S', k') →
      (res = none ∧ S' = S) ∨ (∃ v, res = some v ∧ v ∉ S ∧ S' = insert v S) := by
  intro fuel
  induction fuel with
  | zero => intro S id k j res S' k' h; exact absurd h (by simp [rigLoop])
  | succ f ih =>
    intro S id k j res S' k' h
    simp only [rigLoop] at h
    by_cases hid : id ∈ S
    · rw [if_pos hid] at h
      split at h
      next =>
        split at h
        next =>
          injection h with h₁
          exact Or.inl ⟨(congrArg (fun t : Option Nat × Finset Nat × Nat => t.1) h₁).symm,
            (congrArg (fun t : Option Nat × Finset Nat × Nat => t.2.1) h₁).symm⟩
        next => exact ih S (d k) (k + 1) (j + 1) res S' k' h
      next => exact ih S (d k) (k + 1) j res S' k' h
    · rw [if_neg hid] at h
      injection h with h₁
      refine Or.inr ⟨id, (congrArg (fun t : Option Nat × Finset Nat × Nat => t.1) h₁).symm,
        hid, (congrArg (fun t : Option Nat × Finset Nat × Nat => t.2.1) h₁).symm⟩

/-- Along a trace of `get` calls, every returned string encodes a value
that was not live before its call, so no string is ever repeated:
`R` is the (ghost) set of values already handed out. -/
theorem rigGetN_fresh (mI : Option Nat) (fuel : Nat) :
    ∀ (dss : List (Nat → Nat)) (S R : Finset Nat), R ⊆ S →
      ((rigGetN mI fuel dss S).1.filterMap id).Nodup ∧
      (∀ str ∈ (rigGetN mI fuel dss S).1.filterMap id,
        ∃ v, str = radix36 v ∧ v ∉ R) := by
  intro dss
  induction dss with
  | nil => intro S R _; constructor <;> simp [rigGetN]
  | cons dd ds ih =>
    intro S R hRS
    simp only [rigGetN]
    cases hget : rigGet dd mI fuel S with
    | none =>
      simpa [List.filterMap] using ih S R hRS
    | some r =>
      obtain ⟨res, S₁, k⟩ := r
      rcases rigLoop_effect dd mI fuel S (dd 0) 1 0 res S₁ k hget with
        ⟨hres, hSeq⟩ | ⟨v, hres, hvS, hSeq⟩
      · subst hres
        simpa [List.filterMap, hSeq] using ih S R hRS
      · subst hres; subst hSeq
        have hsub : insert v R ⊆ insert v S := Finset.insert_subset_insert v hRS
        have ihh := ih (insert v S) (insert v R) hsub
        simp only [Option.map_some, List.filterMap_cons_some]
        constructor
        · refine List.nodup_cons.mpr ⟨?_, ihh.1⟩
          intro hmem
          obtain ⟨w, hw, hwR⟩ := ihh.2 _ hmem
          exact hwR (by rw [radix36_inj v w hw]; exact Finset.mem_insert_self w R)
        · intro str hstr
          rcases List.mem_cons.mp hstr with h | h
          · exact ⟨v, h, fun hvR => hvS (hRS hvR)⟩
          · obtain ⟨w, hw, hwR⟩ := ihh.2 _ h
            exact ⟨w, hw, fun hwR' => hwR (Finset.mem_insert_of_mem hwR')⟩

/-! ## Gap structure of the partition generator -/

theorem mem_windows_mem {l : List Nat} {p : Nat × Nat} (h : p ∈ windows l) :
    p.1 ∈ l ∧ p.2 ∈ l := by
  obtain ⟨h₁, h₂⟩ := List.of_mem_zip (by exact h)
  exact ⟨h₁, l.tail_sublist.mem h₂⟩

theorem windows_cons_cons (a b : Nat) (t : List Nat) :
    windows (a :: b :: t) = (a, b) :: windows (b :: t) := rfl

theorem sorted_windows_le {l : List Nat} (hs : l.Sorted (· ≤ ·)) :
    ∀ p ∈ windows l, p.1 ≤ p.2 := by
  induction l with
  | nil => intro p hp; simp [windows] at hp
  | cons a t ih =>
    intro p hp
    cases t with
    | nil => simp [windows] at hp
    | cons b t' =>
      rw [windows_cons_cons] at hp
      rcases List.mem_cons.mp hp with h | h
      · subst h
        exact (List.sorted_cons.mp hs).1 b (by simp)
      · exact ih (List.sorted_cons.mp hs).2 p h

theorem sorted_windows_pairwise {l : List Nat} (hs : l.Sorted (· ≤ ·)) :
    (windows l).Pairwise (fun p q => p.2 ≤ q.1) := by
  induction l with
  | nil => simp [windows]
  | cons a t ih =>
    cases t with
    | nil => simp [windows]
    | cons b t' =>
      rw [windows_cons_cons]
      refine List.pairwise_cons.mpr ⟨?_, ih (List.sorted_cons.mp hs).2⟩
      intro q hq
      have hq1 : q.1 ∈ b :: t' := (mem_windows_mem hq).1
      have hsbt : (b :: t').Sorted (· ≤ ·) := (List.sorted_cons.mp hs).2
      rcases List.mem_cons.mp hq1 with h | h
      · exact h ▸ le_rfl
      · exact (List.sorted_cons.mp hsbt).1 _ h

/-- A value strictly inside an adjacent pair of a sorted list is not an
element of the list. -/
theorem not_mem_of_inside_window {l : List Nat} (hs : l.Sorted (· ≤ ·)) :
    ∀ p ∈ windows l, ∀ v, p.1 < v → v < p.2 → v ∉ l := by
  induction l with
  | nil => intro p hp; simp [windows] at hp
  | cons a t ih =>
    intro p hp v hlo hup hv
    cases t with
    | nil => simp [windows] at hp
    | cons b t' =>
      rw [windows_cons_cons] at hp
      have hst : (b :: t').Sorted (· ≤ ·) := (List.sorted_cons.mp hs).2
      rcases List.mem_cons.mp hp with h | h
      · subst h
        rcases List.mem_cons.mp hv with h₁ | h₁
        · omega
        · rcases List.mem_cons.mp h₁ with h₂ | h₂
          · omega
          · have := (List.sorted_cons.mp hst).1 v h₂
            omega
      · rcases List.mem_cons.mp hv with h₁ | h₁
        · have ha : p.1 ∈ b :: t' := (mem_windows_mem h).1
          have := (List.sorted_cons.mp hs).1 p.1 ha
          omega
        · exact ih hst p h v hlo hup h₁

theorem mem_sort_nat {t : Finset Nat} {x : Nat} :
    x ∈ t.sort (· ≤ ·) ↔ x ∈ t :=
  Finset.mem_sort _

theorem chain_sorted {s : PartState} (hI : InvP s) : (chain s).Sorted (· ≤ ·) := by
  obtain ⟨hmm, -, -, hn, -, -⟩ := hI
  unfold chain
  refine List.sorted_cons.mpr ⟨?_, ?_⟩
  · intro b hb
    rcases List.mem_append.mp hb with h | h
    · exact (hn b (mem_sort_nat.mp h)).1
    · simp at h
      omega
  · refine List.pairwise_append.mpr ⟨Finset.sort_sorted (· ≤ ·) s.numbers, by simp, ?_⟩
    intro x hx y hy
    simp at hy
    subst hy
    exact le_of_lt (hn x (mem_sort_nat.mp hx)).2

theorem mem_chain_bounds {s : PartState} (hI : InvP s) :
    ∀ x ∈ chain s, s.min ≤ x ∧ x ≤ s.max := by
  obtain ⟨hmm, -, -, hn, -, -⟩ := hI
  intro x hx
  rcases List.mem_cons.mp hx with h | h
  · omega
  · rcases List.mem_append.mp h with h₁ | h₁
    · have := hn x (mem_sort_nat.mp h₁)
      omega
    · simp at h₁
      omega

theorem mem_numbers_mem_chain {s : PartState} {x : Nat} (hx : x ∈ s.numbers) :
    x ∈ chain s :=
  List.mem_cons_of_mem _ (List.mem_append_left _ (mem_sort_nat.mpr hx))

theorem wsub32_eq {a b : Nat} (hba : b ≤ a) (ha : a < 2 ^ 32) : wsub32 a b = a - b := by
  unfold wsub32
  omega

/-- Every gap kept by the width filter is an adjacent pair of the chain
whose interior is nonempty, with `u32`-safe bounds. -/
theorem gapsOf_spec {s : PartState} (hI : InvP s) :
    ∀ p ∈ gapsOf s, p ∈ windows (chain s) ∧ p.1 + 1 < p.2 ∧ p.2 < 2 ^ 32 ∧
      s.min ≤ p.1 ∧ p.2 ≤ s.max := by
  intro p hp
  obtain ⟨hw, hfilt⟩ := List.mem_filter.mp hp
  have hle : p.1 ≤ p.2 := sorted_windows_le (chain_sorted hI) p hw
  have hb₁ := mem_chain_bounds hI p.1 (mem_windows_mem hw).1
  have hb₂ := mem_chain_bounds hI p.2 (mem_windows_mem hw).2
  have hmax : s.max < 2 ^ 32 := hI.2.1
  have hwidth : 1 < widthW p := by simpa using hfilt
  rw [widthW, wsub32_eq hle (by omega)] at hwidth
  exact ⟨hw, by omega, by omega, hb₁.1, hb₂.2⟩

/-- The candidate chosen for a gap lies strictly inside it. -/
theorem cand_mem_gap {o : Nat → Nat → Nat} {ir : Bool} {p : Nat × Nat}
    (ho : OracleOK o) (hgap : p.1 + 1 < p.2) (hub : p.2 < 2 ^ 32) :
    p.1 < cand o ir p ∧ cand o ir p < p.2 := by
  have hww : widthW p = p.2 - p.1 := wsub32_eq (by omega) hub
  unfold cand
  by_cases h2 : widthW p = 2
  · rw [if_pos h2]
    omega
  · rw [if_neg h2]
    have hge3 : p.1 + 2 ≤ p.2 := by omega
    by_cases hir : ir
    · rw [if_pos hir]
      have := ho p.1 p.2 hge3
      omega
    · rw [if_neg hir]
      omega

/-- Disjointness relation on gaps: one ends before the other starts. -/
def GapDisj (p q : Nat × Nat) : Prop := p.2 ≤ q.1 ∨ q.2 ≤ p.1

theorem gapDisj_symm : ∀ {p q : Nat × Nat}, GapDisj p q → GapDisj q p :=
  fun h => h.symm

theorem mem_keptGaps_gapsOf {s : PartState} {p : Nat × Nat} :
    p ∈ keptGaps s → p ∈ gapsOf s := by
  intro hp
  exact (List.perm_insertionSort wider (gapsOf s)).mem_iff.mp (List.mem_of_mem_take hp)

theorem keptGaps_pairwise_disj {s : PartState} (hI : InvP s) :
    (keptGaps s).reverse.Pairwise GapDisj := by
  have h₁ : (windows (chain s)).Pairwise (fun p q => p.2 ≤ q.1) :=
    sorted_windows_pairwise (chain_sorted hI)
  have h₂ : (gapsOf s).Pairwise (fun p q => p.2 ≤ q.1) :=
    h₁.sublist (List.filter_sublist _)
  have h₃ : (gapsOf s).Pairwise GapDisj := h₂.imp Or.inl
  have h₄ : (sortedGaps s).Pairwise GapDisj :=
    ((List.perm_insertionSort wider (gapsOf s)).pairwise_iff gapDisj_symm).mpr h₃
  have h₅ : (keptGaps s).Pairwise GapDisj := h₄.sublist (List.take_sublist _ _)
  exact List.pairwise_reverse.mpr (h₅.imp gapDisj_symm)

/-- The refill cache: duplicate-free, disjoint from the current live set,
inside the configured range. -/
theorem newCache_spec {s : PartState} {o : Nat → Nat → Nat}
    (hI : InvP s) (ho : OracleOK o) :
    (newCache o s).Nodup ∧
    ∀ v ∈ newCache o s, v ∉ s.numbers ∧ s.min ≤ v ∧ v < s.max := by
  have hmemgap : ∀ p ∈ (keptGaps s).reverse, p ∈ gapsOf s := by
    intro p hp
    exact mem_keptGaps_gapsOf (List.mem_reverse.mp hp)
  constructor
  · have hpw : ((keptGaps s).reverse).Pairwise
        (fun p q => cand o s.isRandom p ≠ cand o s.isRandom q) := by
      refine (keptGaps_pairwise_disj hI).imp_of_mem ?_
      intro p q hp hq hdisj
      obtain ⟨-, hgp, hup, -, -⟩ := gapsOf_spec hI p (hmemgap p hp)
      obtain ⟨-, hgq, huq, -, -⟩ := gapsOf_spec hI q (hmemgap q hq)
      have hcp := @cand_mem_gap o s.isRandom p ho hgp hup
      have hcq := @cand_mem_gap o s.isRandom q ho hgq huq
      rcases hdisj with h | h <;> omega
    exact List.pairwise_map.mpr hpw
  · intro v hv
    obtain ⟨p, hp, hpv⟩ := List.mem_map.mp hv
    obtain ⟨hw, hgp, hup, hlo, hhi⟩ := gapsOf_spec hI p (hmemgap p hp)
    have hc := @cand_mem_gap o s.isRandom p ho hgp hup
    rw [hpv] at hc
    refine ⟨?_, by omega, by omega⟩
    intro hmem
    exact not_mem_of_inside_window (chain_sorted hI) p hw v hc.1 hc.2
      (mem_numbers_mem_chain hmem)

/-- Ghost invariant along a trace: `R` is the set of values already
returned; they stay live and never reappear in the prefetch cache. -/
def TInv (R : Finset Nat) (s : PartState) : Prop :=
  InvP s ∧ R ⊆ s.numbers ∧ ∀ v ∈ s.cache, v ∉ R

/-- Popping the last cache element of a well-formed state. -/
theorem pPop_spec {s : PartState} {R : Finset Nat}
    (hT : TInv R s) (hne : s.cache ≠ []) :
    ∃ v, pPop s = (some (radix36 v), { s with cache := s.cache.dropLast }) ∧
      v ∉ R ∧ TInv (insert v R) { s with cache := s.cache.dropLast } := by
  obtain ⟨⟨h₁, h₂, h₃, h₄, h₅, h₆⟩, hRsub, hcR⟩ := hT
  have hlast : s.cache.getLast? = some (s.cache.getLast hne) :=
    List.getLast?_eq_getLast _ hne
  set v := s.cache.getLast hne with hv
  have hsplit : s.cache.dropLast ++ [v] = s.cache :=
    List.dropLast_append_getLast? v hlast
  have hvmem : v ∈ s.cache := by
    rw [← hsplit]; simp
  have hvdrop : v ∉ s.cache.dropLast := by
    intro hmem
    have := hsplit ▸ h₅
    obtain ⟨-, -, hdisj⟩ := List.nodup_append.mp this
    exact hdisj hmem (by simp)
  refine ⟨v, ?_, hcR v hvmem, ?_, ?_, ?_⟩
  · unfold pPop
    rw [hlast]
  · exact ⟨h₁, h₂, h₃, h₄, h₅.sublist (List.dropLast_sublist _),
      fun w hw => h₆ w ((List.dropLast_sublist _).mem hw)⟩
  · exact Finset.insert_subset (h₆ v hvmem) hRsub
  · intro w hw
    simp only [Finset.mem_insert]
    push_neg
    exact ⟨fun hwv => hvdrop (hwv ▸ hw),
      hcR w ((List.dropLast_sublist _).mem hw)⟩

/-- One `get` call of the partition generator: either no identifier is
produced and the ghost invariant is kept, or a never-before-returned
value is encoded and returned. -/
theorem pGet_spec {o : Nat → Nat → Nat} {s : PartState} {R : Finset Nat}
    (ho : OracleOK o) (hT : TInv R s) :
    (∃ s', pGet o s = (none, s') ∧ TInv R s') ∨
    (∃ v s', pGet o s = (some (radix36 v), s') ∧ v ∉ R ∧ TInv (insert v R) s') := by
  by_cases hc : s.cache.isEmpty
  · unfold pGet
    rw [if_pos hc]
    by_cases hcc : (newCache o s).isEmpty
    · left
      refine ⟨s, ?_, hT⟩
      unfold pGenerate
      rw [if_pos hcc]
    · right
      have hgen : pGenerate o s = (true,
          { s with
              numbers := s.numbers ∪ (newCache o s).toFinset
              cache := newCache o s }) := by
        unfold pGenerate
        rw [if_neg hcc]
      rw [hgen]
      have hT₁ : TInv R
          { s with
              numbers := s.numbers ∪ (newCache o s).toFinset
              cache := newCache o s } := by
        obtain ⟨hnodup, hfresh⟩ := newCache_spec hT.1 ho
        obtain ⟨⟨h₁, h₂, h₃, h₄, -, -⟩, hRsub, -⟩ := hT
        refine ⟨⟨h₁, h₂, h₃, ?_, hnodup, ?_⟩, ?_, ?_⟩
        · dsimp only
          intro x hx
          rcases Finset.mem_union.mp hx with h | h
          · exact h₄ x h
          · have := hfresh x (List.mem_toFinset.mp h)
            omega
        · dsimp only
          intro v hv
          exact Finset.mem_union_right _ (List.mem_toFinset.mpr hv)
        · exact hRsub.trans Finset.subset_union_left
        · dsimp only
          intro v hv
          exact fun hvR => (hfresh v hv).1 (hRsub hvR)
      obtain ⟨v, hpop, hvR, hTv⟩ := pPop_spec hT₁
        (by simpa [List.isEmpty_iff] using hcc)
      exact ⟨v, _, hpop, hvR, hTv⟩
  · unfold pGet
    rw [if_neg hc]
    right
    obtain ⟨v, hpop, hvR, hTv⟩ := pPop_spec hT (by simpa [List.isEmpty_iff] using hc)
    exact ⟨v, _, hpop, hvR, hTv⟩

/-- Along a trace of partition-generator `get` calls, returned strings
are distinct and all encode values outside the ghost set `R`. -/
theorem pGetN_fresh :
    ∀ (os : List (Nat → Nat → Nat)) (s : PartState) (R : Finset Nat),
      (∀ o ∈ os, OracleOK o) → TInv R s →
      ((pGetN os s).1.filterMap id).Nodup ∧
      (∀ str ∈ (pGetN os s).1.filterMap id, ∃ v, str = radix36 v ∧ v ∉ R) := by
  intro os
  induction os with
  | nil => intro s R _ _; constructor <;> simp [pGetN]
  | cons o os' ih =>
    intro s R hos hT
    have ho : OracleOK o := hos o (by simp)
    have hos' : ∀ q ∈ os', OracleOK q := fun q hq => hos q (by simp [hq])
    simp only [pGetN]
    rcases pGet_spec ho hT with ⟨s', hget, hT'⟩ | ⟨v, s', hget, hvR, hT'⟩
    · rw [hget]
      simpa [List.filterMap] using ih s' R hos' hT'
    · rw [hget]
      have ihh := ih s' (insert v R) hos' hT'
      simp only [List.filterMap_cons_some]
      constructor
      · refine List.nodup_cons.mpr ⟨?_, ihh.1⟩
        intro hmem
        obtain ⟨w, hw, hwR⟩ := ihh.2 _ hmem
        exact hwR (by rw [radix36_inj v w hw]; exact Finset.mem_insert_self w R)
      · intro str hstr
        rcases List.mem_cons.mp hstr with h | h
        · exact ⟨v, h, hvR⟩
        · obtain ⟨w, hw, hwR⟩ := ihh.2 _ h
          exact ⟨w, hw, fun hwR' => hwR (Finset.mem_insert_of_mem hwR')⟩

/-! ## Claim C6 — ID uniqueness under load -/

/-- Claim C6: for either strategy, the identifier strings returned by a
sequence of `get` calls with no intervening `remove` are pairwise
distinct (for Strategy B, from any well-formed generator state, with
gap sampling that stays inside the gap). -/
theorem allocate_ids_pairwise_distinct :
    (∀ (mI : Option Nat) (fuel : Nat) (dss : List (Nat → Nat)) (S : Finset Nat),
      ((rigGetN mI fuel dss S).1.filterMap id).Nodup) ∧
    (∀ (os : List (Nat → Nat → Nat)) (s : PartState),
      (∀ o ∈ os, OracleOK o) → InvP s →
      ((pGetN os s).1.filterMap id).Nodup) := by
  constructor
  · intro mI fuel dss S
    exact (rigGetN_fresh mI fuel dss S ∅ (Finset.empty_subset S)).1
  · intro os s hos hI
    exact (pGetN_fresh os s ∅ hos
      ⟨hI, Finset.empty_subset _, fun v _ => Finset.not_mem_empty v⟩).1

/-- Witness for `allocate_ids_pairwise_distinct`: a Strategy A trace of
two calls on live set `{0}` and a Strategy B trace of two calls on
`tinyState`. -/
theorem allocate_ids_pairwise_distinct_witness :
    ((rigGetN (some 2) 3 [fun k => k, fun k => k] {0}).1.filterMap id).Nodup ∧
    ((pGetN [fun a _ => a + 1, fun a _ => a + 1] tinyState).1.filterMap id).Nodup :=
  ⟨allocate_ids_pairwise_distinct.1 (some 2) 3 [fun k => k, fun k => k] {0},
   allocate_ids_pairwise_distinct.2 [fun a _ => a + 1, fun a _ => a + 1] tinyState
     (by
       intro q hq
       simp only [List.mem_cons, List.not_mem_nil, or_false] at hq
       rcases hq with h | h <;> exact h ▸ fun _ _ hab => ⟨Nat.le_refl _, hab⟩)
     (by decide)⟩

/-! ## Claim C8 — prefetch LIFO, widest first -/

/-- While the cache is nonempty, successive `get` calls pop it from the
back without refilling: `k` calls return the last `k` cached values in
reverse cache order. -/
theorem pGetN_pops :
    ∀ (k : Nat) (os : List (Nat → Nat → Nat)) (s : PartState),
      os.length = k → k ≤ s.cache.length →
      (pGetN os s).1 = (s.cache.reverse.take k).map (fun v => some (radix36 v)) := by
  intro k
  induction k with
  | zero =>
    intro os s hlen _
    rw [List.length_eq_zero.mp hlen]
    simp [pGetN]
  | succ k ih =>
    intro os s hlen hk
    cases os with
    | nil => simp at hlen
    | cons q os' =>
      have hne : s.cache ≠ [] := by
        intro h
        rw [h] at hk
        simp at hk
      have hlast : s.cache.getLast? = some (s.cache.getLast hne) :=
        List.getLast?_eq_getLast _ hne
      set v := s.cache.getLast hne with hv
      have hsplit : s.cache.dropLast ++ [v] = s.cache :=
        List.dropLast_append_getLast? v hlast
      have hpop : pPop s = (some (radix36 v), { s with cache := s.cache.dropLast }) := by
        unfold pPop
        rw [hlast]
      have hget : pGet q s = (some (radix36 v), { s with cache := s.cache.dropLast }) := by
        unfold pGet
        rw [if_neg (by simpa [List.isEmpty_iff] using hne)]
        exact hpop
      have hdrop : k ≤ s.cache.dropLast.length := by
        rw [List.length_dropLast]
        omega
      have hrev : s.cache.reverse = v :: s.cache.dropLast.reverse := by
        conv_lhs => rw [← hsplit]
        simp
      simp only [pGetN, hget]
      rw [ih os' _ (by simpa using hlen) hdrop, hrev]
      rfl

/-- Claim C8: after a refill of the empty prefetch buffer the cache holds
one candidate per kept gap in ascending width order; the kept gaps are
width-sorted descending and at least as wide as every discarded gap, and
the next `cache.length` calls return the candidates widest-gap first. -/
theorem prefetch_widest_first (s : PartState) (o : Nat → Nat → Nat)
    (os : List (Nat → Nat → Nat)) (_hI : InvP s) (hc : s.cache = [])
    (_ho : OracleOK o) (hne : newCache o s ≠ [])
    (hlen : os.length + 1 = (newCache o s).length) :
    ((keptGaps s).reverse.Pairwise (fun p q => widthW p ≤ widthW q)) ∧
    (∀ p ∈ keptGaps s, p ∈ gapsOf s) ∧
    (∀ p ∈ keptGaps s, ∀ q ∈ (sortedGaps s).drop s.maxPregen, widthW q ≤ widthW p) ∧
    ((pGetN (o :: os) s).1 =
      (keptGaps s).map (fun p => some (radix36 (cand o s.isRandom p)))) := by
  have hsorted : (sortedGaps s).Pairwise wider :=
    List.sorted_insertionSort wider (gapsOf s)
  have hkept : (keptGaps s).Pairwise wider := hsorted.sublist (List.take_sublist _ _)
  refine ⟨List.pairwise_reverse.mpr hkept, fun p hp => mem_keptGaps_gapsOf hp, ?_, ?_⟩
  · intro p hp q hq
    have := List.pairwise_append.mp
      ((List.take_append_drop s.maxPregen (sortedGaps s)).symm ▸ hsorted)
    exact this.2.2 p hp q hq
  · -- the first call refills and pops, the remaining calls only pop
    set c := newCache o s with hcdef
    have hgen : pGenerate o s = (true,
        { s with
            numbers := s.numbers ∪ c.toFinset
            cache := c }) := by
      unfold pGenerate
      rw [if_neg (by simpa [List.isEmpty_iff] using hne)]
    set s₁ : PartState :=
      { s with
          numbers := s.numbers ∪ c.toFinset
          cache := c } with hs₁
    have hlast : c.getLast? = some (c.getLast hne) := List.getLast?_eq_getLast _ hne
    set v := c.getLast hne with hv
    have hsplit : c.dropLast ++ [v] = c := List.dropLast_append_getLast? v hlast
    have hpop : pPop s₁ = (some (radix36 v), { s₁ with cache := c.dropLast }) := by
      unfold pPop
      rw [show s₁.cache.getLast? = some v from hlast]
    have hget : pGet o s = (some (radix36 v), { s₁ with cache := c.dropLast }) := by
      unfold pGet
      rw [if_pos (by simp [hc]), hgen]
      exact hpop
    have hclen : os.length = c.dropLast.length := by
      rw [List.length_dropLast]
      omega
    have hrest : (pGetN os { s₁ with cache := c.dropLast }).1 =
        (c.dropLast.reverse.take os.length).map (fun w => some (radix36 w)) := by
      refine pGetN_pops os.length os _ rfl ?_
      rw [show ({ s₁ with cache := c.dropLast } : PartState).cache = c.dropLast from rfl]
      omega
    have htake : c.dropLast.reverse.take os.length = c.dropLast.reverse := by
      apply List.take_of_length_le
      rw [List.length_reverse]
      omega
    have hrev : c.reverse = v :: c.dropLast.reverse := by
      conv_lhs => rw [← hsplit]
      simp
    have hout : (pGetN (o :: os) s).1 = c.reverse.map (fun w => some (radix36 w)) := by
      simp only [pGetN, hget, hrest, htake, hrev]
      rfl
    rw [hout, hcdef]
    unfold newCache
    simp [List.map_map, Function.comp]

/-- Concrete refill on `tinyState`: the cache after a refill is `[8, 3]`
(kept gaps `(0,7)` then `(7,10)` by descending width, reversed, midpoint
candidates).  `Finset.sort` does not reduce in the kernel, so the chain
is computed by `simp` first. -/
theorem tinyState_newCache : newCache (fun a _ => a + 1) tinyState = [8, 3] := by
  have hchain : chain tinyState = [0, 7, 10] := by
    simp [chain, tinyState, Finset.sort_singleton]
  simp only [newCache, keptGaps, sortedGaps, gapsOf, hchain]
  rfl

/-- Witness for `prefetch_widest_first` on `tinyState` (range `[0, 10)`,
live `{7}`): gaps `(0,7)` and `(7,10)`, candidates `[8, 3]` in the
cache, returned as `3` (width-7 gap) then `8` (width-3 gap). -/
theorem prefetch_widest_first_witness :
    ((keptGaps tinyState).reverse.Pairwise (fun p q => widthW p ≤ widthW q)) ∧
    (∀ p ∈ keptGaps tinyState, p ∈ gapsOf tinyState) ∧
    (∀ p ∈ keptGaps tinyState,
      ∀ q ∈ (sortedGaps tinyState).drop tinyState.maxPregen, widthW q ≤ widthW p) ∧
    ((pGetN [fun a _ => a + 1, fun a _ => a + 1] tinyState).1 =
      (keptGaps tinyState).map
        (fun p => some (radix36 (cand (fun a _ => a + 1) tinyState.isRandom p)))) :=
  prefetch_widest_first tinyState (fun a _ => a + 1) [fun a _ => a + 1]
    (by decide) (by decide) (fun _ _ hab => ⟨Nat.le_refl _, hab⟩)
    (by simp [tinyState_newCache]) (by simp [tinyState_newCache])

/-! ## Claim C9 — size limit boundary -/

/-- Claim C9: with `limit = paste_len_kib * 1024` and a payload of
`payl` bytes left after stripping any PROXY header, a payload of exactly
`limit` bytes passes the size check — and is persisted when UTF-8
validation, allocation and the filesystem succeed — while `limit + 1`
or more bytes draw the exceeded-limit reply, create no directory and
leave the live set untouched. -/
theorem size_limit_boundary
    (pasteLenKib : Nat) (talkProxy : Bool) (stream : List Nat) (hdr : Option Nat)
    (utf8Ok : List Nat → Bool) (d : Nat → Nat) (mI : Option Nat) (fuel : Nat)
    (S : Finset Nat) (fs : FsOutcome) (h payl : Nat)
    (hph : parsedHeader talkProxy hdr
        (stream.take (pasteLenKib * 1024 + ((if talkProxy then 1024 else 0) + 1))).length
        = some (h, payl)) :
    (payl = pasteLenKib * 1024 →
      (pasteStep pasteLenKib talkProxy stream hdr utf8Ok d mI fuel S fs).1 ≠
        Reply.exceeded) ∧
    (∀ v S' k, payl = pasteLenKib * 1024 →
      utf8Ok ((stream.take
          (pasteLenKib * 1024 + ((if talkProxy then 1024 else 0) + 1))).drop h) = true →
      rigGet d mI fuel S = some (some v, S', k) →
      pasteStep pasteLenKib talkProxy stream hdr utf8Ok d mI fuel S FsOutcome.ok =
        (Reply.success (radix36 v), true, S')) ∧
    (pasteLenKib * 1024 + 1 ≤ payl →
      pasteStep pasteLenKib talkProxy stream hdr utf8Ok d mI fuel S fs =
        (Reply.exceeded, false, S)) := by
  refine ⟨?_, ?_, ?_⟩
  · intro hpl
    simp only [pasteStep, hph]
    rw [if_neg (by omega)]
    by_cases hu : utf8Ok ((stream.take
        (pasteLenKib * 1024 + ((if talkProxy then 1024 else 0) + 1))).drop h)
    · rw [if_pos hu]
      cases hg : rigGet d mI fuel S with
      | none => simp
      | some r =>
        obtain ⟨res, S₁, k⟩ := r
        cases res with
        | none => simp
        | some v => cases fs <;> simp
    · rw [if_neg hu]
      simp
  · intro v S' k hpl hu hg
    simp only [pasteStep, hph]
    rw [if_neg (by omega), if_pos hu, hg]
  · intro hpl
    simp only [pasteStep, hph]
    rw [if_pos (by omega)]

/-- Witness for `size_limit_boundary` with `max-size-kib = 0`
(`limit = 0`): the empty payload is persisted, a one-byte payload gets
the exceeded reply with no directory and an unchanged live set. -/
theorem size_limit_boundary_witness :
    (pasteStep 0 false [] none (fun _ => true) (fun _ => 7) none 1 ∅ FsOutcome.ok =
      (Reply.success (radix36 7), true, insert 7 ∅)) ∧
    (pasteStep 0 false [9] none (fun _ => true) (fun _ => 7) none 1 ∅ FsOutcome.ok =
      (Reply.exceeded, false, ∅)) :=
  ⟨(size_limit_boundary 0 false [] none (fun _ => true) (fun _ => 7) none 1 ∅
      FsOutcome.ok 0 0 (by decide)).2.1 7 (insert 7 ∅) 1 (by decide) (by decide)
      (by decide),
   (size_limit_boundary 0 false [9] none (fun _ => true) (fun _ => 7) none 1 ∅
      FsOutcome.ok 0 1 (by decide)).2.2 (by decide)⟩

end Notesock
